import Mathlib

/-!
Verification of the Unmatched matchup engine (`src/matchup_engine.py`)
against its natural-language specification.

The engine is shallowly embedded: Python dicts become association lists,
Python sets become `Finset String`, floats become `ℚ` (exact arithmetic),
and the pseudo-random source is an injected oracle choosing indices, so
that statements hold for every seed.
-/

/-- A sparse, directional win-rate table:
`fighterId → fighterId → percentage`, embedded as nested association
lists (Python nested dicts). -/
abbrev Table := List (String × List (String × ℚ))

/-- The raw dict lookup `win_rate_matrix[id_a][id_b]`:
`some v` exactly when `id_a in matrix and id_b in matrix[id_a]`. -/
def rawWinRate (m : Table) (a b : String) : Option ℚ :=
  match m.lookup a with
  | none => none
  | some row => row.lookup b

/-- `MatchupEngine._get_win_rate`: direct entry, else complement of the
reverse entry as `100 - value`, else the neutral default `50.0`. -/
def getWinRate (m : Table) (a b : String) : ℚ :=
  match rawWinRate m a b with
  | some v => v
  | none =>
    match rawWinRate m b a with
    | some v => 100 - v
    | none => 50

/-- `MatchupEngine._build_fairness_map`, viewed as the map it builds:
for a catalog id `a`, the set of catalog ids `b ≠ a` with
`1 <= wr <= 99`; a `defaultdict(set)` yields `∅` off the catalog. -/
def fairSet (ids : List String) (m : Table) (a : String) : Finset String :=
  if a ∈ ids then
    (ids.filter (fun b =>
      decide (b ≠ a ∧ 1 ≤ getWinRate m a b ∧ getWinRate m a b ≤ 99))).toFinset
  else ∅

theorem mem_fairSet {ids : List String} {m : Table} {a b : String} :
    b ∈ fairSet ids m a ↔
      a ∈ ids ∧ b ∈ ids ∧ b ≠ a ∧
        1 ≤ getWinRate m a b ∧ getWinRate m a b ≤ 99 := by
  unfold fairSet
  by_cases ha : a ∈ ids
  · simp [ha, List.mem_filter, decide_eq_true_iff, and_assoc]
  · simp [ha]

/-- C1: `_get_win_rate` returns the stored entry for (a,b) when present;
otherwise, when an entry (b,a) with value v is present, it returns
`100 - v`; otherwise `50.0`. The embedding is a total function, so every
query succeeds. -/
theorem getWinRate_spec (m : Table) (a b : String) :
    (∀ v, rawWinRate m a b = some v → getWinRate m a b = v) ∧
    (rawWinRate m a b = none →
      ∀ v, rawWinRate m b a = some v → getWinRate m a b = 100 - v) ∧
    (rawWinRate m a b = none → rawWinRate m b a = none →
      getWinRate m a b = 50) := by
  refine ⟨?_, ?_, ?_⟩
  · intro v hv
    simp [getWinRate, hv]
  · intro hab v hba
    simp [getWinRate, hab, hba]
  · intro hab hba
    simp [getWinRate, hab, hba]

theorem getWinRate_spec_witness :
    getWinRate [("a", [("b", 60)])] "a" "b" = 60 ∧
    getWinRate [("b", [("a", 60)])] "a" "b" = 40 ∧
    getWinRate [] "a" "b" = 50 := by
  refine ⟨?_, ?_, ?_⟩
  · exact (getWinRate_spec [("a", [("b", 60)])] "a" "b").1 60
      (by simp [rawWinRate, List.lookup])
  · have h := (getWinRate_spec [("b", [("a", 60)])] "a" "b").2.1
      (by simp [rawWinRate, List.lookup]) 60 (by simp [rawWinRate, List.lookup])
    rw [h]; norm_num
  · exact (getWinRate_spec [] "a" "b").2.2
      (by simp [rawWinRate]) (by simp [rawWinRate])

/-- C2 counterexample: with catalog `[a, b]` and stored rate
`wr(a,b) = 1/2`, the win rate lies strictly inside (0,100) yet `b` is
not in `a`'s fair-set, because the code tests `1 <= wr <= 99`, not
membership in the open interval (0,100). -/
theorem fairSet_open_interval_false :
    ¬ (("b" ∈ fairSet ["a", "b"] [("a", [("b", 1/2)])] "a") ↔
       (0 < getWinRate [("a", [("b", 1/2)])] "a" "b" ∧
        getWinRate [("a", [("b", 1/2)])] "a" "b" < 100)) := by
  have hwr : getWinRate [("a", [("b", 1/2)])] "a" "b" = 1/2 := by
    simp [getWinRate, rawWinRate, List.lookup]
  intro h
  have hmem := h.2 (by rw [hwr]; norm_num)
  rw [mem_fairSet, hwr] at hmem
  have := hmem.2.2.2.1
  norm_num at this

/-- C2 (amended): for distinct catalog fighters a,b, the fair-set built
at construction contains b in a's set iff `1 ≤ winRate(a,b) ≤ 99`
(the code's closed bounds, not the open interval (0,100)). -/
theorem fairSet_iff_closed_bounds (ids : List String) (m : Table)
    (a b : String) (ha : a ∈ ids) (hb : b ∈ ids) (hab : a ≠ b) :
    b ∈ fairSet ids m a ↔
      (1 ≤ getWinRate m a b ∧ getWinRate m a b ≤ 99) := by
  rw [mem_fairSet]
  constructor
  · rintro ⟨-, -, -, h1, h2⟩
    exact ⟨h1, h2⟩
  · rintro ⟨h1, h2⟩
    exact ⟨ha, hb, hab.symm, h1, h2⟩

theorem fairSet_iff_closed_bounds_witness :
    ("b" ∈ fairSet ["a", "b"] [("a", [("b", 60)])] "a") ↔
      (1 ≤ getWinRate [("a", [("b", 60)])] "a" "b" ∧
       getWinRate [("a", [("b", 60)])] "a" "b" ≤ 99) :=
  fairSet_iff_closed_bounds ["a", "b"] [("a", [("b", 60)])] "a" "b"
    (by decide) (by decide) (by simp)

/-- C3 counterexample: when both directions of a pair are recorded
inconsistently — `wr(a,b) = 50` but `wr(b,a) = 100` — fair-set
membership is not symmetric: b is fair for a, but a is not fair for b. -/
theorem fairSet_symm_false :
    ("b" ∈ fairSet ["a", "b"]
        [("a", [("b", 50)]), ("b", [("a", 100)])] "a") ∧
    ¬ ("a" ∈ fairSet ["a", "b"]
        [("a", [("b", 50)]), ("b", [("a", 100)])] "b") := by
  have hwr : getWinRate [("a", [("b", 50)]), ("b", [("a", 100)])] "a" "b"
      = 50 := by simp [getWinRate, rawWinRate, List.lookup]
  constructor
  · rw [mem_fairSet, hwr]
    refine ⟨by decide, by decide, by decide, by norm_num, by norm_num⟩
  · rw [mem_fairSet]
    rintro ⟨-, -, -, -, h⟩
    have hwr : getWinRate [("a", [("b", 50)]), ("b", [("a", 100)])] "b" "a"
        = 100 := by
      simp [getWinRate, rawWinRate, List.lookup]
    rw [hwr] at h
    norm_num at h

theorem getWinRate_complement {m : Table} {a b : String}
    (hcons : ∀ v w, rawWinRate m a b = some v →
      rawWinRate m b a = some w → v + w = 100) :
    getWinRate m b a = 100 - getWinRate m a b := by
  unfold getWinRate
  cases hab : rawWinRate m a b with
  | some v =>
    cases hba : rawWinRate m b a with
    | some w =>
      have := hcons v w hab hba
      simp only []
      linarith
    | none => simp [hab]
  | none =>
    cases hba : rawWinRate m b a with
    | some w => simp
    | none => norm_num

/-- C3 (amended): fair-set membership is symmetric for every table in
which any pair recorded in both directions is complementary (the two
values sum to 100); this covers every table recording at most one
direction per pair, the sparse-directional case of the spec. -/
theorem fairSet_symm (ids : List String) (m : Table) (a b : String)
    (hcons : ∀ v w, rawWinRate m a b = some v →
      rawWinRate m b a = some w → v + w = 100) :
    b ∈ fairSet ids m a ↔ a ∈ fairSet ids m b := by
  have hc : getWinRate m b a = 100 - getWinRate m a b :=
    getWinRate_complement hcons
  rw [mem_fairSet, mem_fairSet, hc]
  constructor
  · rintro ⟨ha, hb, hne, h1, h2⟩
    exact ⟨hb, ha, hne.symm, by linarith, by linarith⟩
  · rintro ⟨hb, ha, hne, h1, h2⟩
    exact ⟨ha, hb, hne.symm, by linarith, by linarith⟩

theorem fairSet_symm_witness :
    ("b" ∈ fairSet ["a", "b"] [("a", [("b", 60)]), ("b", [("a", 40)])] "a") ↔
    ("a" ∈ fairSet ["a", "b"] [("a", [("b", 60)]), ("b", [("a", 40)])] "b") := by
  refine fairSet_symm ["a", "b"] _ "a" "b" ?_
  intro v w hv hw
  have hv0 : rawWinRate [("a", [("b", 60)]), ("b", [("a", 40)])] "a" "b"
      = some 60 := by simp [rawWinRate, List.lookup]
  have hw0 : rawWinRate [("a", [("b", 60)]), ("b", [("a", 40)])] "b" "a"
      = some 40 := by simp [rawWinRate, List.lookup]
  rw [hv0] at hv
  rw [hw0] at hw
  rw [← Option.some.inj hv, ← Option.some.inj hw]
  norm_num

/-- A fighter record from the catalog: id, major/minor tag lists
(Python turns them into sets with `set(...)`), and the range ordinal
(stored as an integer in the catalog JSON). -/
structure Fighter where
  id : String
  major : List String
  minor : List String
  range : ℕ
deriving DecidableEq, Repr

/-- `RANGE_INPUT_MAP.get(f_raw, 1)` on the fighter's stored integer
range: an integer key 1..5 maps to itself, anything else defaults to 1. -/
def rangeVal (r : ℕ) : ℕ := if 1 ≤ r ∧ r ≤ 5 then r else 1

/-- `RANGE_INPUT_MAP.get(range_pref, 1)` on a (non-"Any", non-empty)
string preference: descriptive names and digit strings map to 1..5,
unknown strings default to 1. -/
def prefVal (p : String) : ℕ :=
  if p = "Melee" ∨ p = "1" then 1
  else if p = "Reach" ∨ p = "2" then 2
  else if p = "Hybrid" ∨ p = "3" then 3
  else if p = "Ranged Assist" ∨ p = "4" then 4
  else if p = "Ranged" ∨ p = "5" then 5
  else 1

/-- The tag component of `MatchupEngine._calculate_individual_fit`:
neutral 0.5 with no request; 0.0 for a tagless fighter; otherwise
`0.4 * matchRatio + 0.6 * coverageScore` with major weight 1.7 and
minor weight 1.0. -/
def tagScore (f : Fighter) (req : Finset String) : ℚ :=
  if req = ∅ then 1/2
  else
    let major := f.major.toFinset
    let minor := f.minor.toFinset
    if major = ∅ ∧ minor = ∅ then 0
    else
      let weightedMatches : ℚ :=
        ((major ∩ req).card : ℚ) * (17/10) + ((minor ∩ req).card : ℚ)
      let totalWeighted : ℚ := (major.card : ℚ) * (17/10) + (minor.card : ℚ)
      let totalRequestedWeighted : ℚ := (req.card : ℚ) * (17/10)
      if 0 < totalWeighted ∧ 0 < totalRequestedWeighted then
        (2/5) * (weightedMatches / totalWeighted)
          + (3/5) * (weightedMatches / totalRequestedWeighted)
      else 0

/-- `MatchupEngine._calculate_individual_fit`: the tag score alone when
no range preference is active, else `0.4 * tagScore + 0.6 * rangeScore`
with `rangeScore = 1 - |fighterRange - prefRange| / 4`. -/
def calculateIndividualFit (f : Fighter) (req : Finset String)
    (rangePref : Option String) : ℚ :=
  let ts := tagScore f req
  match rangePref with
  | none => ts
  | some p =>
    if p = "Any" ∨ p = "" then ts
    else
      let pv : ℤ := prefVal p
      let fv : ℤ := rangeVal f.range
      let rs : ℚ := 1 - ((|fv - pv| : ℤ) : ℚ) / 4
      (2/5) * ts + (3/5) * rs

theorem rangeVal_bounds (r : ℕ) : 1 ≤ rangeVal r ∧ rangeVal r ≤ 5 := by
  unfold rangeVal
  split <;> omega

theorem prefVal_bounds (p : String) : 1 ≤ prefVal p ∧ prefVal p ≤ 5 := by
  unfold prefVal
  repeat' split
  all_goals omega

theorem tagScore_nonneg (f : Fighter) (req : Finset String) :
    0 ≤ tagScore f req := by
  unfold tagScore
  split
  · norm_num
  · dsimp only
    split
    · norm_num
    · split
      · rename_i hpos
        have h2 := hpos.1
        have h3 := hpos.2
        positivity
      · norm_num

theorem tagScore_le_one (f : Fighter) (req : Finset String)
    (hd : f.major.toFinset ∩ f.minor.toFinset = ∅) :
    tagScore f req ≤ 1 := by
  unfold tagScore
  split
  · norm_num
  · dsimp only
    split
    · norm_num
    · split
      · rename_i hreq hne hpos
        have htw := hpos.1
        have htrw := hpos.2
        set M := f.major.toFinset with hM
        set N := f.minor.toFinset with hN
        have hma : (M ∩ req).card ≤ M.card :=
          Finset.card_le_card (Finset.inter_subset_left)
        have hmb : (N ∩ req).card ≤ N.card :=
          Finset.card_le_card (Finset.inter_subset_left)
        -- the two intersections are disjoint and live inside req
        have hdisj : ((M ∩ req) ∩ (N ∩ req)) = ∅ := by
          rw [← Finset.subset_empty, ← hd]
          intro x hx
          simp only [Finset.mem_inter] at hx ⊢
          exact ⟨hx.1.1, hx.2.1⟩
        have hsub : (M ∩ req) ∪ (N ∩ req) ⊆ req := by
          intro x hx
          rcases Finset.mem_union.mp hx with h | h
          · exact (Finset.mem_inter.mp h).2
          · exact (Finset.mem_inter.mp h).2
        have hcard : (M ∩ req).card + (N ∩ req).card ≤ req.card := by
          have h1 := Finset.card_union_add_card_inter (M ∩ req) (N ∩ req)
          have h2 : ((M ∩ req) ∩ (N ∩ req)).card = 0 := by
            rw [hdisj]; rfl
          have h3 := Finset.card_le_card hsub
          omega
        have hq1 : (((M ∩ req).card : ℚ) * (17/10) + ((N ∩ req).card : ℚ))
            / ((M.card : ℚ) * (17/10) + (N.card : ℚ)) ≤ 1 := by
          rw [div_le_one htw]
          have c1 : ((M ∩ req).card : ℚ) ≤ (M.card : ℚ) := by
            exact_mod_cast hma
          have c2 : ((N ∩ req).card : ℚ) ≤ (N.card : ℚ) := by
            exact_mod_cast hmb
          linarith
        have hq2 : (((M ∩ req).card : ℚ) * (17/10) + ((N ∩ req).card : ℚ))
            / ((req.card : ℚ) * (17/10)) ≤ 1 := by
          rw [div_le_one htrw]
          have c3 : ((M ∩ req).card : ℚ) + ((N ∩ req).card : ℚ)
              ≤ (req.card : ℚ) := by exact_mod_cast hcard
          have c4 : (0:ℚ) ≤ ((N ∩ req).card : ℚ) := Nat.cast_nonneg _
          linarith
        have e1 : (0:ℚ) ≤ ((M ∩ req).card : ℚ) := Nat.cast_nonneg _
        have e2 : (0:ℚ) ≤ ((N ∩ req).card : ℚ) := Nat.cast_nonneg _
        have enum : (0:ℚ) ≤ ((M ∩ req).card : ℚ) * (17/10)
            + ((N ∩ req).card : ℚ) := by linarith
        have hn1 : (0:ℚ) ≤ (((M ∩ req).card : ℚ) * (17/10)
            + ((N ∩ req).card : ℚ)) / ((M.card : ℚ) * (17/10) + (N.card : ℚ)) :=
          div_nonneg enum (le_of_lt htw)
        have hn2 : (0:ℚ) ≤ (((M ∩ req).card : ℚ) * (17/10)
            + ((N ∩ req).card : ℚ)) / ((req.card : ℚ) * (17/10)) :=
          div_nonneg enum (le_of_lt htrw)
        linarith
      · norm_num

/-- C8 counterexample: a fighter whose major and minor tag sets overlap
(the tag "t" is listed in both) gets a fit score of 23/17 > 1 against
the request `{t}` with no range preference, so the fit score is not
bounded by 1 for arbitrary fighter records. -/
theorem fit_above_one :
    1 < calculateIndividualFit ⟨"x", ["t"], ["t"], 1⟩ {"t"} none := by
  have h : calculateIndividualFit ⟨"x", ["t"], ["t"], 1⟩ {"t"} none
      = 23/17 := by
    simp [calculateIndividualFit, tagScore]
    norm_num
  rw [h]
  norm_num

/-- C8 (amended): for every fighter whose major and minor tag sets are
disjoint (the data model's convention), every requested tag set and
every range preference, the fit score lies in [0,1]; with overlapping
tag sets the bound can fail (see the counterexample). -/
theorem fit_bounds (f : Fighter) (req : Finset String)
    (rangePref : Option String)
    (hd : f.major.toFinset ∩ f.minor.toFinset = ∅) :
    0 ≤ calculateIndividualFit f req rangePref ∧
      calculateIndividualFit f req rangePref ≤ 1 := by
  have hts0 := tagScore_nonneg f req
  have hts1 := tagScore_le_one f req hd
  unfold calculateIndividualFit
  cases rangePref with
  | none => exact ⟨hts0, hts1⟩
  | some p =>
    dsimp only
    split
    · exact ⟨hts0, hts1⟩
    · have hfv := rangeVal_bounds f.range
      have hpv := prefVal_bounds p
      have habs : |((rangeVal f.range : ℤ)) - ((prefVal p : ℤ))| ≤ 4 := by
        rw [abs_le]
        omega
      have habs0 : (0:ℤ) ≤ |((rangeVal f.range : ℤ)) - ((prefVal p : ℤ))| :=
        abs_nonneg _
      have hq : ((|((rangeVal f.range : ℤ)) - ((prefVal p : ℤ))| : ℤ) : ℚ) ≤ 4 := by
        exact_mod_cast habs
      have hq0 : (0:ℚ) ≤ ((|((rangeVal f.range : ℤ)) - ((prefVal p : ℤ))| : ℤ) : ℚ) := by
        exact_mod_cast habs0
      constructor
      · linarith
      · linarith

theorem fit_bounds_witness :
    0 ≤ calculateIndividualFit ⟨"w", ["t"], [], 3⟩ {"t"} (some "Melee") ∧
      calculateIndividualFit ⟨"w", ["t"], [], 3⟩ {"t"} (some "Melee") ≤ 1 :=
  fit_bounds ⟨"w", ["t"], [], 3⟩ {"t"} (some "Melee") (by decide)

/-- C7 counterexample: a fighter carrying the requested tag only as a
minor tag has combined tag set exactly equal to the request and an
exactly matching range, yet its fit score is 383/425, not 1.0 — the
coverage term values requested tags at the major weight 1.7, which a
minor match cannot attain. -/
theorem fit_exact_match_false :
    ((Fighter.mk "x" [] ["t"] 2).major.toFinset ∪
      (Fighter.mk "x" [] ["t"] 2).minor.toFinset = {"t"}) ∧
    ((rangeVal (Fighter.mk "x" [] ["t"] 2).range : ℤ) = prefVal "Reach") ∧
    calculateIndividualFit ⟨"x", [], ["t"], 2⟩ {"t"} (some "Reach") ≠ 1 := by
  refine ⟨by decide, by decide, ?_⟩
  have h : calculateIndividualFit ⟨"x", [], ["t"], 2⟩ {"t"} (some "Reach")
      = 383/425 := by
    simp [calculateIndividualFit, tagScore, rangeVal, prefVal]
    norm_num
  rw [h]
  norm_num

/-- C7 (amended): the fit score is exactly 1.0 when the fighter's MAJOR
tag set equals the non-empty requested set, the fighter has no minor
tags, and the range category exactly matches the active preference;
a request met through minor tags scores below 1 (see counterexample). -/
theorem fit_exact_match (f : Fighter) (req : Finset String) (p : String)
    (hreq : req ≠ ∅) (hmaj : f.major.toFinset = req) (hmin : f.minor = [])
    (hp : ¬(p = "Any" ∨ p = ""))
    (hr : (rangeVal f.range : ℤ) = (prefVal p : ℤ)) :
    calculateIndividualFit f req (some p) = 1 := by
  have hq : 0 < (req.card : ℚ) := by
    have := Finset.card_pos.mpr (Finset.nonempty_iff_ne_empty.mpr hreq)
    exact_mod_cast this
  have hminf : f.minor.toFinset = ∅ := by rw [hmin]; rfl
  have hts : tagScore f req = 1 := by
    unfold tagScore
    rw [if_neg hreq]
    dsimp only
    rw [hmaj, hminf]
    rw [if_neg (by
      rintro ⟨h1, -⟩
      exact hreq h1)]
    rw [Finset.inter_self, Finset.empty_inter, Finset.card_empty]
    rw [if_pos (by
      constructor <;> · push_cast; nlinarith)]
    push_cast
    have hx : (req.card : ℚ) * (17/10) + 0 ≠ 0 := by nlinarith
    rw [div_self hx]
    have hx2 : (req.card : ℚ) * (17/10) ≠ 0 := by nlinarith
    rw [add_zero, div_self hx2]
    norm_num
  unfold calculateIndividualFit
  dsimp only
  rw [if_neg hp, hts, hr]
  simp only [sub_self, abs_zero, Int.cast_zero, zero_div, sub_zero, mul_one]
  norm_num

theorem fit_exact_match_witness :
    calculateIndividualFit ⟨"w", ["t"], [], 2⟩ {"t"} (some "Reach") = 1 :=
  fit_exact_match ⟨"w", ["t"], [], 2⟩ {"t"} "Reach"
    (by decide) (by decide) rfl (by decide) (by decide)

/-- Stable insertion step for descending order: the new element goes
before the first strictly-smaller-or-equal... precisely, before the
first element it weakly beats, so earlier input elements win ties —
the order produced by Python's stable `sort(key=..., reverse=True)`. -/
def insertDesc {α : Type} (key : α → ℚ) (x : α) : List α → List α
  | [] => [x]
  | y :: ys => if key y ≤ key x then x :: y :: ys else y :: insertDesc key x ys

/-- Stable descending sort by a rational key (insertion sort), the
order observed from Python's stable `list.sort(key=..., reverse=True)`. -/
def sortDesc {α : Type} (key : α → ℚ) : List α → List α
  | [] => []
  | x :: xs => insertDesc key x (sortDesc key xs)

theorem mem_insertDesc {α : Type} (key : α → ℚ) (x : α) (l : List α)
    (z : α) : z ∈ insertDesc key x l ↔ z = x ∨ z ∈ l := by
  induction l with
  | nil => simp [insertDesc]
  | cons y ys ih =>
    simp only [insertDesc]
    split
    · simp
    · simp only [List.mem_cons, ih]
      tauto

theorem mem_sortDesc {α : Type} (key : α → ℚ) (l : List α) (z : α) :
    z ∈ sortDesc key l ↔ z ∈ l := by
  induction l with
  | nil => simp [sortDesc]
  | cons x xs ih =>
    simp only [sortDesc, mem_insertDesc, List.mem_cons, ih]

theorem pairwise_insertDesc {α : Type} (key : α → ℚ) (x : α) (l : List α)
    (h : l.Pairwise (fun a b => key b ≤ key a)) :
    (insertDesc key x l).Pairwise (fun a b => key b ≤ key a) := by
  induction l with
  | nil => simp [insertDesc]
  | cons y ys ih =>
    simp only [insertDesc]
    rcases List.pairwise_cons.mp h with ⟨hy, hys⟩
    split
    · rename_i hle
      refine List.pairwise_cons.mpr ⟨?_, h⟩
      intro z hz
      rcases List.mem_cons.mp hz with rfl | hz2
      · exact hle
      · exact le_trans (hy z hz2) hle
    · rename_i hgt
      refine List.pairwise_cons.mpr ⟨?_, ih hys⟩
      intro z hz
      rcases (mem_insertDesc key x ys z).mp hz with rfl | hz2
      · exact le_of_not_le hgt
      · exact hy z hz2

theorem pairwise_sortDesc {α : Type} (key : α → ℚ) (l : List α) :
    (sortDesc key l).Pairwise (fun a b => key b ≤ key a) := by
  induction l with
  | nil => simp [sortDesc]
  | cons x xs ih => exact pairwise_insertDesc key x _ ih

/-- The per-candidate score used by `recommend_opponents`:
`fairnessWeight * fairness(fixed, candidate) + fitWeight * fit(candidate)`. -/
def candScore (wFair wFit : ℚ) (m : Table) (fighter : Fighter)
    (oppTags : Finset String) (oppRange : Option String)
    (opp : Fighter) : ℚ :=
  wFair * (1 - |getWinRate m fighter.id opp.id - 50| / 50)
    + wFit * calculateIndividualFit opp oppTags oppRange

/-- `MatchupEngine.recommend_opponents`: score every available fighter
other than the fixed one, sort descending by score (stable), return the
top `quantity` fighters. -/
def recommendOpponents (wFair wFit : ℚ) (m : Table) (fighter : Fighter)
    (avail : List Fighter) (oppTags : Finset String)
    (oppRange : Option String) (quantity : ℕ) : List Fighter :=
  let candidates := (avail.filter (fun o => decide (o.id ≠ fighter.id))).map
    (fun o => (o, candScore wFair wFit m fighter oppTags oppRange o))
  ((sortDesc Prod.snd candidates).take quantity).map Prod.fst

/-- The fixture catalog of C6: alpha (melee/aggressive),
bravo (reach/defensive), charlie (hybrid/both tags). -/
def alphaF : Fighter := ⟨"alpha", ["aggressive"], [], 1⟩

def bravoF : Fighter := ⟨"bravo", ["defensive"], [], 2⟩

def charlieF : Fighter := ⟨"charlie", ["aggressive", "defensive"], [], 3⟩

/-- The fixture win table of C6: `{alpha:{bravo:60}, bravo:{charlie:55}}`. -/
def fixtureTable : Table := [("alpha", [("bravo", 60)]), ("bravo", [("charlie", 55)])]

/-- C6: `recommend_opponents` excludes the fixed fighter, returns
candidates sorted descending by
`fairnessWeight * fairness + fitWeight * fit` (stable, so ties keep
input order), truncated to `quantity`; and on the C6 fixture,
recommending opponents for alpha with tags {defensive}, range Reach and
quantity 2 under default weights yields [bravo, charlie]. -/
theorem recommendOpponents_spec :
    (∀ (wFair wFit : ℚ) (m : Table) (fighter : Fighter)
       (avail : List Fighter) (oppTags : Finset String)
       (oppRange : Option String) (quantity : ℕ),
      (∀ g ∈ recommendOpponents wFair wFit m fighter avail oppTags
          oppRange quantity, g.id ≠ fighter.id) ∧
      (recommendOpponents wFair wFit m fighter avail oppTags
          oppRange quantity).Pairwise
        (fun g h => candScore wFair wFit m fighter oppTags oppRange h ≤
          candScore wFair wFit m fighter oppTags oppRange g) ∧
      (recommendOpponents wFair wFit m fighter avail oppTags
          oppRange quantity).length ≤ quantity) ∧
    recommendOpponents (2/5) (3/5) fixtureTable alphaF
      [alphaF, bravoF, charlieF] {"defensive"} (some "Reach") 2
      = [bravoF, charlieF] := by
  constructor
  · intro wFair wFit m fighter avail oppTags oppRange quantity
    refine ⟨?_, ?_, ?_⟩
    · intro g hg
      unfold recommendOpponents at hg
      rcases List.mem_map.mp hg with ⟨p, hp, rfl⟩
      have hp2 : p ∈ sortDesc Prod.snd
          ((avail.filter (fun o => decide (o.id ≠ fighter.id))).map
            (fun o => (o, candScore wFair wFit m fighter oppTags oppRange o))) :=
        (List.take_sublist _ _).subset hp
      rw [mem_sortDesc] at hp2
      rcases List.mem_map.mp hp2 with ⟨o, ho, rfl⟩
      have := List.mem_filter.mp ho
      simpa using this.2
    · unfold recommendOpponents
      rw [List.pairwise_map]
      have hsorted := pairwise_sortDesc Prod.snd
        ((avail.filter (fun o => decide (o.id ≠ fighter.id))).map
          (fun o => (o, candScore wFair wFit m fighter oppTags oppRange o)))
      have htake := hsorted.sublist (List.take_sublist quantity _)
      refine htake.imp_of_mem ?_
      intro p q hp hq hle
      have hp2 : p ∈ sortDesc Prod.snd _ := (List.take_sublist _ _).subset hp
      have hq2 : q ∈ sortDesc Prod.snd _ := (List.take_sublist _ _).subset hq
      rw [mem_sortDesc] at hp2 hq2
      rcases List.mem_map.mp hp2 with ⟨o1, -, rfl⟩
      rcases List.mem_map.mp hq2 with ⟨o2, -, rfl⟩
      exact hle
    · unfold recommendOpponents
      rw [List.length_map, List.length_take]
      exact min_le_left _ _
  · have hfb : calculateIndividualFit bravoF {"defensive"} (some "Reach")
        = 1 := by
      simp [calculateIndividualFit, tagScore, bravoF, prefVal, rangeVal]
      norm_num
    have hfc : calculateIndividualFit charlieF {"defensive"} (some "Reach")
        = 77/100 := by
      simp [calculateIndividualFit, tagScore, charlieF, prefVal, rangeVal]
      norm_num
    have hwb : getWinRate fixtureTable "alpha" "bravo" = 60 := by
      simp [getWinRate, rawWinRate, fixtureTable, List.lookup]
    have hwc : getWinRate fixtureTable "alpha" "charlie" = 50 := by
      simp [getWinRate, rawWinRate, fixtureTable, List.lookup]
    have hsb : candScore (2/5) (3/5) fixtureTable alphaF {"defensive"}
        (some "Reach") bravoF = 23/25 := by
      unfold candScore
      rw [show bravoF.id = "bravo" from rfl, show alphaF.id = "alpha" from rfl,
        hwb, hfb]
      norm_num
    have hsc : candScore (2/5) (3/5) fixtureTable alphaF {"defensive"}
        (some "Reach") charlieF = 431/500 := by
      unfold candScore
      rw [show charlieF.id = "charlie" from rfl,
        show alphaF.id = "alpha" from rfl, hwc, hfc]
      norm_num
    unfold recommendOpponents
    have hfilter : ([alphaF, bravoF, charlieF].filter
        (fun o => decide (o.id ≠ alphaF.id))) = [bravoF, charlieF] := by
      simp [List.filter, alphaF, bravoF, charlieF]
    rw [hfilter]
    simp only [List.map_cons, List.map_nil, hsb, hsc]
    rw [show sortDesc Prod.snd [(bravoF, (23/25 : ℚ)), (charlieF, 431/500)]
        = [(bravoF, (23/25 : ℚ)), (charlieF, 431/500)] by
      simp [sortDesc, insertDesc]
      norm_num]
    simp

theorem recommendOpponents_spec_witness :
    bravoF.id ≠ alphaF.id ∧
    recommendOpponents (2/5) (3/5) fixtureTable alphaF
      [alphaF, bravoF, charlieF] {"defensive"} (some "Reach") 2
      = [bravoF, charlieF] :=
  ⟨(recommendOpponents_spec.1 (2/5) (3/5) fixtureTable alphaF
      [alphaF, bravoF, charlieF] {"defensive"} (some "Reach") 2).1 bravoF
      (by rw [recommendOpponents_spec.2]; exact List.mem_cons_self _ _),
    recommendOpponents_spec.2⟩

/-- A scored candidate pair from `generate_batch`:
`p1` is the subject, `opp` the counterpart. -/
structure Cand where
  p1 : Fighter
  opp : Fighter
  score : ℚ
  winRate : ℚ
deriving DecidableEq, Repr

/-- `MatchupEngine._score_pair`: average of the two per-side fit scores,
fairness as proximity of the win rate to 50, combined with the current
weights; also returns the win rate. -/
def scorePair (wFit wFair : ℚ) (m : Table) (p1Tags oppTags : Finset String)
    (p1Range oppRange : Option String) (fa fb : Fighter) : ℚ × ℚ :=
  let dualFit := (calculateIndividualFit fa p1Tags p1Range
    + calculateIndividualFit fb oppTags oppRange) / 2
  let wr := getWinRate m fa.id fb.id
  let fairness := 1 - |wr - 50| / 50
  (wFit * dualFit + wFair * fairness, wr)

/-- Step 1 of `generate_batch`: score every ordered pair of distinct
fighters, in the nested-loop order of the source. -/
def allCandidates (wFit wFair : ℚ) (m : Table) (p1Tags oppTags : Finset String)
    (p1Range oppRange : Option String) (avail : List Fighter) : List Cand :=
  (avail.map (fun fa => avail.filterMap (fun fb =>
    if fa.id = fb.id then none
    else
      some ⟨fa, fb, (scorePair wFit wFair m p1Tags oppTags p1Range oppRange fa fb).1,
        (scorePair wFit wFair m p1Tags oppTags p1Range oppRange fa fb).2⟩))).flatten

/-- Occurrences of fighter id `i` as the subject ("p1") of a batch. -/
def countSubj (l : List Cand) (i : String) : ℕ :=
  l.countP (fun c => decide (c.p1.id = i))

/-- Occurrences of fighter id `i` as the counterpart ("opp") of a batch. -/
def countOpp (l : List Cand) (i : String) : ℕ :=
  l.countP (fun c => decide (c.opp.id = i))

/-- The iterative selection loop of `generate_batch` (step 2): filter
out pairs whose subject or counterpart is maxed out, break when none is
left, take the top 10, draw one by weighted random choice
(`random.choices` raises ValueError when the total weight is not
positive — modelled as `Except.error`), update both per-side counters
and append the draw. The pseudo-random draw is an injected `oracle`
choosing an index into the top-10 list, so results cover every seed. -/
def runBatch (oracle : ℕ → ℕ) (allC : List Cand) (maxRepeats : ℕ) :
    ℕ → ℕ → (String → ℕ) → (String → ℕ) → List Cand →
      Except String (List Cand)
  | 0, _, _, _, acc => .ok acc
  | q + 1, step, p1C, oppC, acc =>
    let valid := allC.filter (fun c =>
      decide (p1C c.p1.id < maxRepeats ∧ oppC c.opp.id < maxRepeats))
    match valid with
    | [] => .ok acc
    | t :: ts =>
      let top10 := (t :: ts).take 10
      let total := (top10.map Cand.score).sum
      if total ≤ 0 then .error "total of weights must be greater than zero"
      else
        let sel := top10.getD (oracle step % top10.length) t
        runBatch oracle allC maxRepeats q (step + 1)
          (fun i => if i = sel.p1.id then p1C i + 1 else p1C i)
          (fun i => if i = sel.opp.id then oppC i + 1 else oppC i)
          (acc ++ [sel])

/-- `MatchupEngine.generate_batch`: score all pairs, sort once
descending, then run the capped selection loop with `MAX_REPEATS = 3`. -/
def generateBatch (oracle : ℕ → ℕ) (wFit wFair : ℚ) (m : Table)
    (avail : List Fighter) (p1Tags oppTags : Finset String)
    (p1Range oppRange : Option String) (quantity : ℕ) :
    Except String (List Cand) :=
  runBatch oracle
    (sortDesc Cand.score
      (allCandidates wFit wFair m p1Tags oppTags p1Range oppRange avail))
    3 quantity 0 (fun _ => 0) (fun _ => 0) []

/-- A tagless melee fighter "a" for the zero-score batch scenario. -/
def zeroA : Fighter := ⟨"a", [], [], 1⟩

/-- A tagless melee fighter "b" for the zero-score batch scenario. -/
def zeroB : Fighter := ⟨"b", [], [], 1⟩

/-- A win table recording only guaranteed results (100) both ways, so
every pair's fairness score is 0. -/
def zeroTable : Table := [("a", [("b", 100)]), ("b", [("a", 100)])]

theorem generateBatch_allZero_eval (oracle : ℕ → ℕ) :
    generateBatch oracle (3/5) (2/5) zeroTable [zeroA, zeroB] {"x"} {"x"}
      none none 1
      = .error "total of weights must be greater than zero" := by
  have hfa : calculateIndividualFit zeroA {"x"} none = 0 := by
    simp [calculateIndividualFit, tagScore, zeroA]
  have hfb : calculateIndividualFit zeroB {"x"} none = 0 := by
    simp [calculateIndividualFit, tagScore, zeroB]
  have hw1 : getWinRate zeroTable "a" "b" = 100 := by
    simp [getWinRate, rawWinRate, zeroTable, List.lookup]
  have hw2 : getWinRate zeroTable "b" "a" = 100 := by
    simp [getWinRate, rawWinRate, zeroTable, List.lookup]
  have hs1 : scorePair (3/5) (2/5) zeroTable {"x"} {"x"} none none
      zeroA zeroB = (0, 100) := by
    unfold scorePair
    rw [show zeroA.id = "a" from rfl, show zeroB.id = "b" from rfl,
      hw1, hfa, hfb]
    norm_num
  have hs2 : scorePair (3/5) (2/5) zeroTable {"x"} {"x"} none none
      zeroB zeroA = (0, 100) := by
    unfold scorePair
    rw [show zeroA.id = "a" from rfl, show zeroB.id = "b" from rfl,
      hw2, hfa, hfb]
    norm_num
  have hall : allCandidates (3/5) (2/5) zeroTable {"x"} {"x"} none none
      [zeroA, zeroB]
      = [⟨zeroA, zeroB, 0, 100⟩, ⟨zeroB, zeroA, 0, 100⟩] := by
    simp [allCandidates, List.filterMap, hs1, hs2,
      show zeroA.id = "a" from rfl, show zeroB.id = "b" from rfl]
  have hsort : sortDesc Cand.score
      [(⟨zeroA, zeroB, 0, 100⟩ : Cand), ⟨zeroB, zeroA, 0, 100⟩]
      = [⟨zeroA, zeroB, 0, 100⟩, ⟨zeroB, zeroA, 0, 100⟩] := by
    simp [sortDesc, insertDesc]
  unfold generateBatch
  rw [hall, hsort]
  simp [runBatch, List.filter, countSubj, countOpp]

/-- C9: `generate_batch` is not exception-free. On a data-model-valid
input (all recorded win rates in [0,100]) where every pair's combined
score is 0 — tagless fighters against a non-empty tag request, with
only guaranteed-win records — the weighted draw of step 2 has total
weight 0 and `random.choices` raises ValueError, for every seed;
the model returns the corresponding error instead of a list. -/
theorem generateBatch_zero_weights_raises (oracle : ℕ → ℕ) :
    generateBatch oracle (3/5) (2/5) zeroTable [zeroA, zeroB] {"x"} {"x"}
      none none 1
      = .error "total of weights must be greater than zero" :=
  generateBatch_allZero_eval oracle

/-- C5 counterexample: at the zero-score input there are candidate
pairs and all repetition counters start below the cap (so a pair
satisfying the cap exists at the first and only selection step), yet
`generate_batch(quantity=1)` does not return a batch of one pair — it
raises (models the `random.choices` ValueError on zero total weight). -/
theorem generateBatch_exactN_false :
    allCandidates (3/5) (2/5) zeroTable {"x"} {"x"} none none
      [zeroA, zeroB] ≠ [] ∧
    generateBatch (fun _ => 0) (3/5) (2/5) zeroTable [zeroA, zeroB]
      {"x"} {"x"} none none 1
      = .error "total of weights must be greater than zero" := by
  constructor
  · intro h
    have h2 : (⟨zeroA, zeroB, 0, 100⟩ : Cand) ∈
        allCandidates (3/5) (2/5) zeroTable {"x"} {"x"} none none
          [zeroA, zeroB] := by
      unfold allCandidates
      rw [List.mem_flatten]
      refine ⟨[⟨zeroA, zeroB, 0, 100⟩], ?_, List.mem_singleton.mpr rfl⟩
      rw [List.mem_map]
      refine ⟨zeroA, List.mem_cons_self _ _, ?_⟩
      have hs1 : scorePair (3/5) (2/5) zeroTable {"x"} {"x"} none none
          zeroA zeroB = (0, 100) := by
        unfold scorePair
        rw [show zeroA.id = "a" from rfl, show zeroB.id = "b" from rfl,
          show getWinRate zeroTable "a" "b" = 100 from by
            simp [getWinRate, rawWinRate, zeroTable, List.lookup],
          show calculateIndividualFit zeroA {"x"} none = 0 from by
            simp [calculateIndividualFit, tagScore, zeroA],
          show calculateIndividualFit zeroB {"x"} none = 0 from by
            simp [calculateIndividualFit, tagScore, zeroB]]
        norm_num
      simp [List.filterMap, hs1,
        show zeroA.id = "a" from rfl, show zeroB.id = "b" from rfl]
    rw [h] at h2
    exact List.not_mem_nil _ h2
  · exact generateBatch_allZero_eval (fun _ => 0)

theorem countSubj_append (l1 l2 : List Cand) (i : String) :
    countSubj (l1 ++ l2) i = countSubj l1 i + countSubj l2 i := by
  simp [countSubj, List.countP_append]

theorem countOpp_append (l1 l2 : List Cand) (i : String) :
    countOpp (l1 ++ l2) i = countOpp l1 i + countOpp l2 i := by
  simp [countOpp, List.countP_append]

theorem countSubj_singleton (c : Cand) (i : String) :
    countSubj [c] i = if c.p1.id = i then 1 else 0 := by
  by_cases h : c.p1.id = i <;> simp [countSubj, List.countP_cons, h]

theorem countOpp_singleton (c : Cand) (i : String) :
    countOpp [c] i = if c.opp.id = i then 1 else 0 := by
  by_cases h : c.opp.id = i <;> simp [countOpp, List.countP_cons, h]

theorem getD_mem_of_default_mem {α : Type} {l : List α} {d : α}
    (n : ℕ) (hd : d ∈ l) : l.getD n d ∈ l := by
  rw [List.getD_eq_getElem?_getD]
  cases h : l[n]? with
  | none => simpa using hd
  | some x =>
    have := List.getElem?_mem h
    simpa [h] using this

/-- Loop invariant of `runBatch`: a successful run respects both
per-side repetition caps, returns at most the requested number of
pairs beyond the accumulator, and stops short only when no candidate
satisfies the caps at the stopping state. -/
theorem runBatch_ok_spec (oracle : ℕ → ℕ) (allC : List Cand) (M : ℕ) :
    ∀ (q step : ℕ) (p1C oppC : String → ℕ) (acc l : List Cand),
    runBatch oracle allC M q step p1C oppC acc = .ok l →
    (∀ i, p1C i = countSubj acc i) →
    (∀ i, oppC i = countOpp acc i) →
    (∀ i, countSubj acc i ≤ M) →
    (∀ i, countOpp acc i ≤ M) →
    (∀ i, countSubj l i ≤ M) ∧ (∀ i, countOpp l i ≤ M) ∧
    l.length ≤ acc.length + q ∧
    (l.length < acc.length + q →
      allC.filter (fun c =>
        decide (countSubj l c.p1.id < M ∧ countOpp l c.opp.id < M)) = []) := by
  intro q
  induction q with
  | zero =>
    intro step p1C oppC acc l hrun hp1 hopp hs ho
    have hacc : acc = l := by
      have : Except.ok (ε := String) acc = Except.ok l := by
        simpa [runBatch] using hrun
      exact Except.ok.inj this
    subst hacc
    exact ⟨hs, ho, by omega, fun h => absurd h (by omega)⟩
  | succ q ih =>
    intro step p1C oppC acc l hrun hp1 hopp hs ho
    unfold runBatch at hrun
    dsimp only at hrun
    cases hv : allC.filter (fun c =>
        decide (p1C c.p1.id < M ∧ oppC c.opp.id < M)) with
    | nil =>
      rw [hv] at hrun
      simp only [] at hrun
      have hacc : acc = l := Except.ok.inj hrun
      subst hacc
      refine ⟨hs, ho, by omega, fun h2 => ?_⟩
      rw [← hv]
      apply List.filter_congr
      intro c hc
      rw [hp1 c.p1.id, hopp c.opp.id]
    | cons t ts =>
      rw [hv] at hrun
      simp only [] at hrun
      by_cases htot : (((t :: ts).take 10).map Cand.score).sum ≤ 0
      · rw [if_pos htot] at hrun
        exact absurd hrun (by simp)
      · rw [if_neg htot] at hrun
        set sel := ((t :: ts).take 10).getD
          (oracle step % ((t :: ts).take 10).length) t with hseldef
        have hselmem : sel ∈ t :: ts := by
          apply List.take_subset 10
          exact getD_mem_of_default_mem _
            (by
              have h10 : (0:ℕ) < 10 := by omega
              simp [List.take_cons, h10])
        have hselfil : sel ∈ allC.filter (fun c =>
            decide (p1C c.p1.id < M ∧ oppC c.opp.id < M)) := by
          rw [hv]; exact hselmem
        have hselcap := (List.mem_filter.mp hselfil).2
        rw [decide_eq_true_iff] at hselcap
        have hcap1 : countSubj acc sel.p1.id < M := by
          rw [← hp1]; exact hselcap.1
        have hcap2 : countOpp acc sel.opp.id < M := by
          rw [← hopp]; exact hselcap.2
        have hres := ih (step + 1)
          (fun i => if i = sel.p1.id then p1C i + 1 else p1C i)
          (fun i => if i = sel.opp.id then oppC i + 1 else oppC i)
          (acc ++ [sel]) l hrun
          (by
            intro i
            dsimp only
            rw [countSubj_append, countSubj_singleton]
            by_cases h : i = sel.p1.id
            · rw [if_pos h, if_pos h.symm, hp1 i]
            · rw [if_neg h, if_neg (fun hh => h hh.symm), Nat.add_zero]
              exact hp1 i)
          (by
            intro i
            dsimp only
            rw [countOpp_append, countOpp_singleton]
            by_cases h : i = sel.opp.id
            · rw [if_pos h, if_pos h.symm, hopp i]
            · rw [if_neg h, if_neg (fun hh => h hh.symm), Nat.add_zero]
              exact hopp i)
          (by
            intro i
            rw [countSubj_append, countSubj_singleton]
            by_cases h : sel.p1.id = i
            · rw [if_pos h]
              have h2 := hcap1
              rw [h] at h2
              omega
            · rw [if_neg h, Nat.add_zero]
              exact hs i)
          (by
            intro i
            rw [countOpp_append, countOpp_singleton]
            by_cases h : sel.opp.id = i
            · rw [if_pos h]
              have h2 := hcap2
              rw [h] at h2
              omega
            · rw [if_neg h, Nat.add_zero]
              exact ho i)
        refine ⟨hres.1, hres.2.1, ?_, ?_⟩
        · have := hres.2.2.1
          simp [List.length_append] at this
          omega
        · intro hlen
          apply hres.2.2.2
          simp [List.length_append]
          omega

/-- C5 (amended): whenever `generate_batch` returns a batch (rather
than raising on a zero-total weighted draw, see the counterexample),
no fighter id appears more than 3 times as subject nor more than 3
times as counterpart — the caps tracked independently per side — at
most `quantity` pairs are returned, and fewer than `quantity` only
when no pair satisfies both caps at the stopping state. -/
theorem generateBatch_ok_spec (oracle : ℕ → ℕ) (wFit wFair : ℚ)
    (m : Table) (avail : List Fighter) (p1Tags oppTags : Finset String)
    (p1Range oppRange : Option String) (quantity : ℕ) (l : List Cand)
    (hok : generateBatch oracle wFit wFair m avail p1Tags oppTags
      p1Range oppRange quantity = .ok l) :
    (∀ i, countSubj l i ≤ 3) ∧ (∀ i, countOpp l i ≤ 3) ∧
    l.length ≤ quantity ∧
    (l.length < quantity →
      (sortDesc Cand.score
        (allCandidates wFit wFair m p1Tags oppTags p1Range oppRange avail)).filter
        (fun c => decide (countSubj l c.p1.id < 3 ∧ countOpp l c.opp.id < 3))
        = []) := by
  unfold generateBatch at hok
  have h := runBatch_ok_spec oracle
    (sortDesc Cand.score
      (allCandidates wFit wFair m p1Tags oppTags p1Range oppRange avail))
    3 quantity 0 (fun _ => 0) (fun _ => 0) [] l hok
    (fun i => rfl) (fun i => rfl)
    (fun i => by simp [countSubj]) (fun i => by simp [countOpp])
  simpa using h

theorem generateBatch_ok_spec_witness :
    countSubj [(⟨zeroA, zeroB, 7/10, 50⟩ : Cand)] "a" ≤ 3 ∧
    ([(⟨zeroA, zeroB, 7/10, 50⟩ : Cand)]).length ≤ 1 := by
  have hfa : calculateIndividualFit zeroA ∅ none = 1/2 := by
    simp [calculateIndividualFit, tagScore]
  have hfb : calculateIndividualFit zeroB ∅ none = 1/2 := by
    simp [calculateIndividualFit, tagScore]
  have hw1 : getWinRate [] "a" "b" = 50 := by
    simp [getWinRate, rawWinRate]
  have hw2 : getWinRate [] "b" "a" = 50 := by
    simp [getWinRate, rawWinRate]
  have hs1 : scorePair (3/5) (2/5) [] ∅ ∅ none none zeroA zeroB
      = (7/10, 50) := by
    unfold scorePair
    rw [show zeroA.id = "a" from rfl, show zeroB.id = "b" from rfl,
      hw1, hfa, hfb]
    norm_num
  have hs2 : scorePair (3/5) (2/5) [] ∅ ∅ none none zeroB zeroA
      = (7/10, 50) := by
    unfold scorePair
    rw [show zeroA.id = "a" from rfl, show zeroB.id = "b" from rfl,
      hw2, hfa, hfb]
    norm_num
  have hall : allCandidates (3/5) (2/5) [] ∅ ∅ none none [zeroA, zeroB]
      = [⟨zeroA, zeroB, 7/10, 50⟩, ⟨zeroB, zeroA, 7/10, 50⟩] := by
    simp [allCandidates, List.filterMap, hs1, hs2,
      show zeroA.id = "a" from rfl, show zeroB.id = "b" from rfl]
  have hsort : sortDesc Cand.score
      [(⟨zeroA, zeroB, 7/10, 50⟩ : Cand), ⟨zeroB, zeroA, 7/10, 50⟩]
      = [⟨zeroA, zeroB, 7/10, 50⟩, ⟨zeroB, zeroA, 7/10, 50⟩] := by
    simp [sortDesc, insertDesc]
  have hok : generateBatch (fun _ => 0) (3/5) (2/5) [] [zeroA, zeroB]
      ∅ ∅ none none 1 = .ok [⟨zeroA, zeroB, 7/10, 50⟩] := by
    unfold generateBatch
    rw [hall, hsort]
    simp [runBatch, List.filter]
  have h := generateBatch_ok_spec (fun _ => 0) (3/5) (2/5) [] [zeroA, zeroB]
    ∅ ∅ none none 1 [⟨zeroA, zeroB, 7/10, 50⟩] hok
  exact ⟨h.1 "a", h.2.2.1⟩

/-- The "intersection trick" of `generate_fair_pools`: the universe of
opponents fair against every member of a side-A pool, folded exactly as
the source iterates (`set(fairness_map[first])` then `&=` over the
rest). The source never reaches the empty case (pools are non-empty). -/
def fairInter (fm : String → Finset String) : List String → Finset String
  | [] => ∅
  | a :: rest => rest.foldl (fun s x => s ∩ fm x) (fm a)

/-- The side-B combinations that `generate_fair_pools` scores against a
given side-A combination: skip all of them when the intersection is
smaller than the B-pool size, else keep those passing the subset test. -/
def prunedScored (fm : String → Finset String) (sizeB : ℕ)
    (A : List String) (oppCombos : List (List String)) :
    List (List String) :=
  let inter := fairInter fm A
  if inter.card < sizeB then []
  else oppCombos.filter (fun B => decide (B.toFinset ⊆ inter))

/-- The spec's direct pairwise fairness check: keep a side-B
combination iff every member of B is in the fairness adjacency set of
every member of A (modelled from the spec's words, for comparison with
`prunedScored`). -/
def directScored (fm : String → Finset String) (A : List String)
    (oppCombos : List (List String)) : List (List String) :=
  oppCombos.filter (fun B => decide (∀ b ∈ B, ∀ a ∈ A, b ∈ fm a))

theorem mem_foldl_inter (fm : String → Finset String) (l : List String)
    (s : Finset String) (x : String) :
    x ∈ l.foldl (fun s y => s ∩ fm y) s ↔ x ∈ s ∧ ∀ y ∈ l, x ∈ fm y := by
  induction l generalizing s with
  | nil => simp
  | cons y ys ih =>
    rw [List.foldl_cons, ih]
    simp only [Finset.mem_inter, List.mem_cons]
    constructor
    · rintro ⟨⟨hs, hy⟩, hys⟩
      exact ⟨hs, fun z hz => by
        rcases hz with rfl | hz2
        · exact hy
        · exact hys z hz2⟩
    · rintro ⟨hs, hall⟩
      exact ⟨⟨hs, hall y (Or.inl rfl)⟩, fun z hz => hall z (Or.inr hz)⟩

theorem mem_fairInter (fm : String → Finset String) (a : String)
    (rest : List String) (x : String) :
    x ∈ fairInter fm (a :: rest) ↔ ∀ y ∈ a :: rest, x ∈ fm y := by
  unfold fairInter
  rw [mem_foldl_inter]
  simp only [List.mem_cons]
  constructor
  · rintro ⟨ha, hrest⟩ y hy
    rcases hy with rfl | hy2
    · exact ha
    · exact hrest y hy2
  · intro hall
    exact ⟨hall a (Or.inl rfl), fun y hy => hall y (Or.inr hy)⟩

/-- C4: the pruned search of `generate_fair_pools` scores exactly the
side-B combinations in which every member of B is fair against every
member of A; in particular the early skip on a too-small intersection
never drops a combination that would pass the subset test, so pruned
and direct pairwise filtering agree on every combination list whose
entries are duplicate-free pools of the configured size. -/
theorem prunedScored_eq_direct (ids : List String) (m : Table)
    (sizeB : ℕ) (A : List String) (oppCombos : List (List String))
    (hA : A ≠ [])
    (hB : ∀ B ∈ oppCombos, B.Nodup ∧ B.length = sizeB) :
    prunedScored (fairSet ids m) sizeB A oppCombos
      = directScored (fairSet ids m) A oppCombos := by
  obtain ⟨a, rest, rfl⟩ : ∃ a rest, A = a :: rest := by
    cases A with
    | nil => exact absurd rfl hA
    | cons a rest => exact ⟨a, rest, rfl⟩
  have hkey : ∀ B : List String,
      (B.toFinset ⊆ fairInter (fairSet ids m) (a :: rest)) ↔
      (∀ b ∈ B, ∀ x ∈ a :: rest, b ∈ fairSet ids m x) := by
    intro B
    constructor
    · intro hsub b hb x hx
      exact (mem_fairInter _ a rest b).mp (hsub (List.mem_toFinset.mpr hb)) x hx
    · intro hall b hb
      exact (mem_fairInter _ a rest b).mpr
        (fun y hy => hall b (List.mem_toFinset.mp hb) y hy)
  unfold prunedScored directScored
  dsimp only
  split
  · rename_i hsmall
    symm
    rw [List.filter_eq_nil_iff]
    intro B hBmem
    rw [decide_eq_true_iff]
    intro hall
    have hsub : B.toFinset ⊆ fairInter (fairSet ids m) (a :: rest) :=
      (hkey B).mpr (fun b hb x hx => hall b hb x hx)
    have hcard : B.toFinset.card ≤
        (fairInter (fairSet ids m) (a :: rest)).card :=
      Finset.card_le_card hsub
    have hBcard : B.toFinset.card = sizeB := by
      rw [List.toFinset_card_of_nodup (hB B hBmem).1]
      exact (hB B hBmem).2
    omega
  · apply List.filter_congr
    intro B hBmem
    rw [decide_eq_decide]
    exact hkey B

theorem prunedScored_eq_direct_witness :
    prunedScored (fairSet ["a", "b"] []) 1 ["a"] [["b"]]
      = directScored (fairSet ["a", "b"] []) ["a"] [["b"]] :=
  prunedScored_eq_direct ["a", "b"] [] 1 ["a"] [["b"]]
    (by decide) (by decide)

/-- The search loop of `generate_fair_pools` (steps 4 and 5): fold over
every side-A combination, skip it entirely when its fairness
intersection is smaller than the B-pool size, else fold over side-B
combinations, and on each subset-passing combination whose score beats
the running maximum (initially -1.0) record it as the best result.
Returns the recorded best pair of id pools, `none` when nothing passed. -/
def searchPools (fm : String → Finset String)
    (score : List String → List String → ℚ) (sizeB : ℕ)
    (p1Combos oppCombos : List (List String)) :
    Option (List String × List String) :=
  (p1Combos.foldl (fun acc A =>
    let inter := fairInter fm A
    if inter.card < sizeB then acc
    else oppCombos.foldl (fun acc2 B =>
      if decide (B.toFinset ⊆ inter) then
        if acc2.2 < score A B then (some (A, B), score A B) else acc2
      else acc2) acc)
    ((none : Option (List String × List String)), (-1 : ℚ))).1

theorem foldl_preserve {α β : Type} (P : β → Prop) (f : β → α → β)
    (l : List α) (init : β) (h0 : P init)
    (hf : ∀ b a, a ∈ l → P b → P (f b a)) : P (l.foldl f init) := by
  induction l generalizing init with
  | nil => exact h0
  | cons x xs ih =>
    rw [List.foldl_cons]
    exact ih (f init x) (hf init x (List.mem_cons_self x xs) h0)
      (fun b a ha hb => hf b a (List.mem_cons_of_mem x ha) hb)

theorem not_mem_fairSet_self (ids : List String) (m : Table)
    (x : String) : x ∉ fairSet ids m x := by
  intro h
  exact (mem_fairSet.mp h).2.2.1 rfl

/-- C10: whenever the pool search returns a result, the two id pools
are disjoint: no fighter belongs to its own fairness adjacency set
(the construction skips `id_a == id_b`), so the subset check cannot
accept a side-B pool sharing a member with side A. -/
theorem searchPools_disjoint (ids : List String) (m : Table)
    (score : List String → List String → ℚ) (sizeB : ℕ)
    (p1Combos oppCombos : List (List String)) (A B : List String)
    (hne : ∀ A2 ∈ p1Combos, A2 ≠ [])
    (hres : searchPools (fairSet ids m) score sizeB p1Combos oppCombos
      = some (A, B)) :
    ∀ x ∈ A, x ∉ B := by
  have hmain := foldl_preserve
    (fun st : Option (List String × List String) × ℚ =>
      ∀ A2 B2, st.1 = some (A2, B2) → A2 ≠ [] ∧
        ∀ b ∈ B2, b ∈ fairInter (fairSet ids m) A2)
    (fun acc A2 =>
      let inter := fairInter (fairSet ids m) A2
      if inter.card < sizeB then acc
      else oppCombos.foldl (fun acc2 B2 =>
        if decide (B2.toFinset ⊆ inter) then
          if acc2.2 < score A2 B2 then (some (A2, B2), score A2 B2) else acc2
        else acc2) acc)
    p1Combos ((none : Option (List String × List String)), (-1 : ℚ))
    (by intro A2 B2 h; exact absurd h (by simp))
    (by
      intro acc A2 hA2 hacc
      dsimp only
      split
      · exact hacc
      · refine foldl_preserve
          (fun st : Option (List String × List String) × ℚ =>
            ∀ A3 B3, st.1 = some (A3, B3) → A3 ≠ [] ∧
              ∀ b ∈ B3, b ∈ fairInter (fairSet ids m) A3)
          _ oppCombos acc hacc ?_
        intro b2 B2 hB2 hb2
        dsimp only
        by_cases hsub : decide (B2.toFinset ⊆ fairInter (fairSet ids m) A2)
          = true
        · rw [if_pos hsub]
          split
          · intro A3 B3 heq
            have h2 : (A2, B2) = (A3, B3) :=
              Option.some.inj (heq : some (A2, B2) = some (A3, B3))
            injection h2 with h3 h4
            subst h3
            subst h4
            refine ⟨hne A2 hA2, ?_⟩
            intro b hb
            rw [decide_eq_true_iff] at hsub
            exact hsub (List.mem_toFinset.mpr hb)
          · exact hb2
        · rw [if_neg (by simpa using hsub)]
          exact hb2)
  have hfinal := hmain A B hres
  intro x hxA hxB
  obtain ⟨a, rest, rfl⟩ : ∃ a rest, A = a :: rest := by
    cases A with
    | nil => exact absurd rfl hfinal.1
    | cons a rest => exact ⟨a, rest, rfl⟩
  have hx : x ∈ fairInter (fairSet ids m) (a :: rest) := hfinal.2 x hxB
  have hx2 := (mem_fairInter _ a rest x).mp hx x hxA
  exact not_mem_fairSet_self ids m x hx2

theorem searchPools_disjoint_witness :
    ("a" : String) ∉ (["b"] : List String) := by
  have hfs : fairSet ["a", "b"] [] "a" = {"b"} := by
    have h50 : getWinRate [] "a" "b" = 50 := by
      simp [getWinRate, rawWinRate]
    simp [fairSet, List.filter, h50]
    norm_num
  have heval : searchPools (fairSet ["a", "b"] []) (fun _ _ => 0) 1
      [["a"]] [["b"]] = some (["a"], ["b"]) := by
    unfold searchPools
    simp only [List.foldl_cons, List.foldl_nil]
    rw [show fairInter (fairSet ["a", "b"] []) ["a"]
        = fairSet ["a", "b"] [] "a" from rfl, hfs]
    norm_num
  exact searchPools_disjoint ["a", "b"] [] (fun _ _ => 0) 1 [["a"]] [["b"]]
    ["a"] ["b"] (by decide) heval "a" (List.mem_singleton.mpr rfl)

theorem generateBatch_zero_weights_raises_witness :
    generateBatch (fun n => n) (3/5) (2/5) zeroTable [zeroA, zeroB]
      {"x"} {"x"} none none 1
      = .error "total of weights must be greater than zero" :=
  generateBatch_zero_weights_raises (fun n => n)
